import Mathlib

/-!
Shallow embedding of the two programs of this repository:

* `src/assets/checkers/pointscmp.cpp` — a scored checker: reads one
  floating-point value from the reference-answer stream (`ans`) and one from
  the candidate-output stream (`ouf`), and quits with score `fabs(ja - pa)`
  and the diagnostic message `"ja=%.4f pa=%.4f"`.
* `src/template/validator/val.cpp` — an input validator: reads `n` with
  `1 ≤ n ≤ 1000`, an end-of-line, `n` integers in `[1, 10000]` separated by
  single spaces, an end-of-line, then asserts end-of-file.

Both are built on the external testing library `testlib.h`, which is not part
of the repository; its stream primitives (`readInt`, `readDouble`,
`readSpace`, `readEoln`, `readEof`) are modelled here from the specification's
description of that capability interface (strict grammar, immediate fatal
failure with a labelled error). Machine doubles are modelled as rationals.
-/

namespace Polyman

/-! ### Characters and decimal digits -/

/-- Numeric value of a digit character (`'0'` has code 48). -/
def digitVal (c : Char) : ℕ := c.toNat - 48

/-- The digit character for a value `d < 10`. -/
def digitChar (d : ℕ) : Char := Char.ofNat (48 + d)

/-- Whether `c` is a decimal digit `'0'`–`'9'` (codes 48–57). -/
def isDig (c : Char) : Bool := decide (48 ≤ c.toNat ∧ c.toNat ≤ 57)

/-- Value of a big-endian string of digit characters. -/
def ofDigits (l : List Char) : ℕ := Nat.ofDigits 10 ((l.map digitVal).reverse)

/-- Canonical decimal rendering of a natural number (most significant digit
first, no leading zeros, `"0"` for zero). -/
def renderNat (v : ℕ) : List Char :=
  if v = 0 then ['0'] else ((Nat.digits 10 v).map digitChar).reverse

/-- Whether a stream does not begin with a digit character (so a maximal
digit token read just before it cannot extend into it). -/
def noDigHead : List Char → Bool
  | [] => true
  | c :: _ => !isDig c

/-! ### The validator (`src/template/validator/val.cpp`)

The input file is a list of characters; each primitive consumes a prefix and
returns the rest of the stream, or fails with a labelled fatal error. -/

/-- Fatal validation failures, labelled by which check failed. -/
inductive VErr where
  | intExpected (label : String)
  | outOfRange (label : String)
  | spaceExpected
  | eolnExpected
  | eofExpected
deriving DecidableEq, Repr

/-- Modelled from the spec: `testlib.h`'s strict `readInt(min, max, label)`
(the library is not in the repository). Reads the maximal run of decimal
digits at the head of the stream; fails when it is empty or has a leading
zero (malformed token), or when its value is outside the inclusive bounds
(range violation). -/
def readInt (lo hi : ℕ) (label : String) (s : List Char) :
    Except VErr (ℕ × List Char) :=
  if s.takeWhile isDig = [] then .error (.intExpected label)
  else if 2 ≤ (s.takeWhile isDig).length ∧ (s.takeWhile isDig).head? = some '0' then
    .error (.intExpected label)
  else if lo ≤ ofDigits (s.takeWhile isDig) ∧ ofDigits (s.takeWhile isDig) ≤ hi then
    .ok (ofDigits (s.takeWhile isDig), s.dropWhile isDig)
  else .error (.outOfRange label)

/-- Modelled from the spec: `testlib.h`'s `readSpace()` — consumes exactly one
space character, anything else is a fatal failure. -/
def readSpace : List Char → Except VErr (List Char)
  | c :: r => if c = ' ' then .ok r else .error .spaceExpected
  | [] => .error .spaceExpected

/-- Modelled from the spec: `testlib.h`'s `readEoln()` — consumes exactly one
end-of-line, anything else is a fatal failure. -/
def readEoln : List Char → Except VErr (List Char)
  | c :: r => if c = '\n' then .ok r else .error .eolnExpected
  | [] => .error .eolnExpected

/-- Modelled from the spec: `testlib.h`'s `readEof()` — succeeds exactly when
the stream is exhausted; trailing bytes are a fatal failure. -/
def readEof : List Char → Except VErr Unit
  | [] => .ok ()
  | _ :: _ => .error .eofExpected

/-- The element loop of `val.cpp` lines 17–22, by remaining count: for each
element read `a_i ∈ [1, 10000]`, and after every element but the last read a
single space separator. Returns the values read and the rest of the stream. -/
def readItems : ℕ → List Char → Except VErr (List ℕ × List Char)
  | 0, s => .ok ([], s)
  | k + 1, s =>
    match readInt 1 10000 "a_i" s with
    | .error e => .error e
    | .ok (v, s1) =>
      if k = 0 then .ok ([v], s1)
      else
        match readSpace s1 with
        | .error e => .error e
        | .ok s2 =>
          match readItems k s2 with
          | .error e => .error e
          | .ok (vs, s3) => .ok (v :: vs, s3)

/-- One record, `val.cpp` lines 15–23: `n ∈ [1, 1000]`, end-of-line, the `n`
elements, end-of-line. (`setTestCase` only tags diagnostics and has no
semantic effect on the stream.) -/
def readRecord (s : List Char) : Except VErr ((ℕ × List ℕ) × List Char) :=
  match readInt 1 1000 "n" s with
  | .error e => .error e
  | .ok (n, s1) =>
    match readEoln s1 with
    | .error e => .error e
    | .ok s2 =>
      match readItems n s2 with
      | .error e => .error e
      | .ok (a, s3) =>
        match readEoln s3 with
        | .error e => .error e
        | .ok s4 => .ok ((n, a), s4)

/-- `val.cpp` line 9: the test-case loop runs `testCaseCount = 1` times. -/
def testCaseCount : ℕ := 1

/-- The `for (testCase = 1; testCase <= testCaseCount; ...)` loop of
`val.cpp` lines 11–24, by remaining iteration count. -/
def runCases : ℕ → List Char → Except VErr (List Char)
  | 0, s => .ok s
  | k + 1, s =>
    match readRecord s with
    | .error e => .error e
    | .ok (_, s1) => runCases k s1

/-- `main` of `val.cpp`: run the test-case loop, then assert end-of-file.
Returns `.ok ()` exactly when the file is accepted. -/
def validator (s : List Char) : Except VErr Unit :=
  match runCases testCaseCount s with
  | .error e => .error e
  | .ok s1 => readEof s1

/-- Boolean accept/reject decision of the validator. -/
def accepts (s : List Char) : Bool :=
  match validator s with
  | .ok _ => true
  | .error _ => false

/-! ### The grammar of §3 of the spec, as a rendering function

`GrammarOK` is written from the specification's words (count `n ∈ [1, 1000]`,
then `n` integers in `[1, 10000]` separated by single spaces, each line ended
by one end-of-line, nothing after), to be compared with `validator`. -/

/-- The row of elements, separated by single spaces. -/
def renderRow : List ℕ → List Char
  | [] => []
  | [v] => renderNat v
  | v :: w :: vs => renderNat v ++ ' ' :: renderRow (w :: vs)

/-- The whole file: the count line, then the element row line. -/
def render (n : ℕ) (a : List ℕ) : List Char :=
  renderNat n ++ '\n' :: (renderRow a ++ ['\n'])

/-- A byte sequence matches the input grammar of §3 of the spec. -/
def GrammarOK (s : List Char) : Prop :=
  ∃ n a, 1 ≤ n ∧ n ≤ 1000 ∧ List.length a = n ∧
    (∀ v ∈ a, 1 ≤ v ∧ v ≤ 10000) ∧ s = render n a

/-! ### The checker (`src/assets/checkers/pointscmp.cpp`)

The checker reads whitespace-delimited tokens; the spec leaves the exact
floating-point token grammar to the external library, so its streams are
modelled at token level: a token is either a well-formed number (a rational,
standing for the machine double) or malformed text. -/

/-- A token of a checker stream. -/
inductive Tok where
  | num (q : ℚ)
  | bad (w : String)

/-- Fatal checker failures: the named stream did not yield a number token. -/
inductive CErr where
  | doubleExpected (stream : String)
deriving DecidableEq, Repr

/-- Modelled from the spec: `testlib.h`'s `readDouble()` — returns the next
token's value when it is a well-formed floating-point token, and fails
fatally (never yielding a value) when the token is absent or malformed. -/
def readDouble (stream : String) : List Tok → Except CErr (ℚ × List Tok)
  | Tok.num q :: rest => .ok (q, rest)
  | _ => .error (.doubleExpected stream)

/-- Whether a token stream begins with a well-formed number token. -/
def numHead : List Tok → Bool
  | Tok.num _ :: _ => true
  | _ => false

/-- Exactly four digit characters: the fractional part of `%.4f`. -/
def fixed4 (f : ℕ) : List Char :=
  [digitChar (f / 1000 % 10), digitChar (f / 100 % 10),
   digitChar (f / 10 % 10), digitChar (f % 10)]

/-- Rendering of a rational with fixed 4-decimal precision, as `%.4f` does:
the magnitude rounded to the nearest multiple of 1/10000 (half away from
zero), written as integer part, `'.'`, and exactly four fractional digits. -/
def fmt4 (q : ℚ) : List Char :=
  let m : ℕ := (q.num.natAbs * 10000 * 2 + q.den) / (2 * q.den)
  (if q < 0 then ['-'] else []) ++
    renderNat (m / 10000) ++ '.' :: fixed4 (m % 10000)

/-- The diagnostic message `"ja=%.4f pa=%.4f"` of `pointscmp.cpp` line 14. -/
def quitpMsg (ja pa : ℚ) : List Char :=
  "ja=".toList ++ fmt4 ja ++ " pa=".toList ++ fmt4 pa

/-- The graded outcome `quitp(score, message)` carries. -/
structure Graded where
  score : ℚ
  msg : List Char

/-- `main` of `pointscmp.cpp`: read one double from the reference-answer
stream, one from the candidate-output stream, and quit graded with score
`fabs(ja - pa)` and message `"ja=%.4f pa=%.4f"`. The original-input stream
`inf` is never read. The final contents of the three streams are returned
alongside the outcome to make consumption visible. -/
def checker (infS ansS oufS : List Tok) :
    Except CErr (Graded × List Tok × List Tok × List Tok) :=
  match readDouble "ans" ansS with
  | .error e => .error e
  | .ok (ja, ansRest) =>
    match readDouble "ouf" oufS with
    | .error e => .error e
    | .ok (pa, oufRest) =>
      .ok ({ score := |ja - pa|, msg := quitpMsg ja pa }, infS, ansRest, oufRest)

/-! ### Lemmas about digits and decimal renderings -/

lemma isDig_iff {c : Char} : isDig c = true ↔ 48 ≤ c.toNat ∧ c.toNat ≤ 57 := by
  simp [isDig]

lemma char_eq_zero {c : Char} (h : c.toNat = 48) : c = '0' := by
  have h2 := Char.ofNat_toNat c
  rw [h] at h2
  rw [← h2]

lemma digitChar_digitVal {c : Char} (h : isDig c = true) :
    digitChar (digitVal c) = c := by
  obtain ⟨h1, _⟩ := isDig_iff.mp h
  have h48 : 48 + digitVal c = c.toNat := by unfold digitVal; omega
  rw [digitChar, h48, Char.ofNat_toNat]

lemma digitVal_lt_ten {c : Char} (h : isDig c = true) : digitVal c < 10 := by
  obtain ⟨h1, h2⟩ := isDig_iff.mp h
  unfold digitVal
  omega

lemma digitVal_digitChar : ∀ d < 10, digitVal (digitChar d) = d := by decide

lemma isDig_digitChar : ∀ d < 10, isDig (digitChar d) = true := by decide

lemma digitChar_ne_zero : ∀ d < 10, d ≠ 0 → digitChar d ≠ '0' := by decide

lemma takeWhile_all_append {l r : List Char} (hl : ∀ c ∈ l, isDig c = true)
    (hr : noDigHead r = true) :
    (l ++ r).takeWhile isDig = l ∧ (l ++ r).dropWhile isDig = r := by
  induction l with
  | nil =>
    simp only [List.nil_append]
    cases r with
    | nil => exact ⟨rfl, rfl⟩
    | cons c r' =>
      have hc : isDig c = false := by
        have := hr
        simp only [noDigHead, Bool.not_eq_true'] at this
        exact this
      simp [List.takeWhile_cons, List.dropWhile_cons, hc]
  | cons a l ih =>
    have ha : isDig a = true := hl a (List.mem_cons_self a l)
    obtain ⟨ih1, ih2⟩ := ih fun c hc => hl c (List.mem_cons_of_mem a hc)
    simp [List.takeWhile_cons, List.dropWhile_cons, ha, ih1, ih2]

lemma noDigHead_dropWhile (s : List Char) : noDigHead (s.dropWhile isDig) = true := by
  induction s with
  | nil => rfl
  | cons c s ih =>
    by_cases h : isDig c = true
    · simp [List.dropWhile_cons, h, ih]
    · simp only [Bool.not_eq_true] at h
      simp [List.dropWhile_cons, h, noDigHead]

lemma renderNat_ne_nil (v : ℕ) : renderNat v ≠ [] := by
  unfold renderNat
  split
  · simp
  · next hv =>
    intro h
    rw [List.reverse_eq_nil_iff, List.map_eq_nil_iff] at h
    exact Nat.digits_ne_nil_iff_ne_zero.mpr hv h

lemma renderNat_digits_mem {v : ℕ} : ∀ c ∈ renderNat v, isDig c = true := by
  unfold renderNat
  split
  · intro c hc
    simp only [List.mem_singleton] at hc
    subst hc
    decide
  · intro c hc
    rw [List.mem_reverse, List.mem_map] at hc
    obtain ⟨d, hd, rfl⟩ := hc
    exact isDig_digitChar d (Nat.digits_lt_base (by norm_num) hd)

lemma renderNat_head_ne_zero {v : ℕ} (hv : v ≠ 0) :
    (renderNat v).head? ≠ some '0' := by
  unfold renderNat
  rw [if_neg hv]
  rw [List.head?_reverse, List.getLast?_map]
  have hnil : Nat.digits 10 v ≠ [] := Nat.digits_ne_nil_iff_ne_zero.mpr hv
  rw [List.getLast?_eq_getLast _ hnil]
  have hlast : (Nat.digits 10 v).getLast hnil ≠ 0 := Nat.getLast_digit_ne_zero 10 hv
  have hlt : (Nat.digits 10 v).getLast hnil < 10 :=
    Nat.digits_lt_base (by norm_num) (List.getLast_mem hnil)
  simp only [Option.map_some', ne_eq, Option.some.injEq]
  exact digitChar_ne_zero _ hlt hlast

lemma ofDigits_renderNat (v : ℕ) : ofDigits (renderNat v) = v := by
  by_cases hv : v = 0
  · subst hv
    rfl
  · unfold renderNat
    rw [if_neg hv]
    unfold ofDigits
    rw [List.map_reverse, List.reverse_reverse, List.map_map]
    have h2 : ∀ d ∈ Nat.digits 10 v, (digitVal ∘ digitChar) d = id d := fun d hd =>
      digitVal_digitChar d (Nat.digits_lt_base (by norm_num) hd)
    rw [List.map_congr_left h2, List.map_id]
    exact Nat.ofDigits_digits 10 v

lemma renderNat_ofDigits {ds : List Char} (h0 : ds ≠ [])
    (hd : ∀ c ∈ ds, isDig c = true)
    (hz : ¬(2 ≤ ds.length ∧ ds.head? = some '0')) :
    renderNat (ofDigits ds) = ds := by
  obtain ⟨c0, ds', rfl⟩ : ∃ c0 ds', ds = c0 :: ds' := by
    cases ds with
    | nil => exact absurd rfl h0
    | cons c0 ds' => exact ⟨c0, ds', rfl⟩
  by_cases hc0 : c0 = '0'
  · subst hc0
    have hds' : ds' = [] := by
      cases ds' with
      | nil => rfl
      | cons b t => exact absurd ⟨by simp, rfl⟩ hz
    subst hds'
    rfl
  · set L := ((c0 :: ds').map digitVal).reverse with hL
    have hL10 : ∀ x ∈ L, x < 10 := by
      intro x hx
      rw [hL, List.mem_reverse, List.mem_map] at hx
      obtain ⟨c, hc, rfl⟩ := hx
      exact digitVal_lt_ten (hd c hc)
    have hLne : L ≠ [] := by simp [hL]
    have hlast : ∀ h : L ≠ [], L.getLast h ≠ 0 := by
      intro h
      have h1 : L.getLast? = some (digitVal c0) := by
        rw [hL, List.getLast?_reverse]
        rfl
      have h2 := List.getLast?_eq_getLast L h
      rw [h1] at h2
      rw [← Option.some.inj h2]
      intro hv0
      have hdig := isDig_iff.mp (hd c0 (List.mem_cons_self c0 ds'))
      have h48 : c0.toNat = 48 := by unfold digitVal at hv0; omega
      exact hc0 (char_eq_zero h48)
    have key := Nat.digits_ofDigits 10 (by norm_num) L hL10 hlast
    have hofd : ofDigits (c0 :: ds') = Nat.ofDigits 10 L := rfl
    have hne : ofDigits (c0 :: ds') ≠ 0 := by
      intro hzero
      have hdig0 : Nat.digits 10 (ofDigits (c0 :: ds')) = [] := by
        rw [hzero]
        simp
      rw [hofd, key] at hdig0
      exact hLne hdig0
    rw [renderNat, if_neg hne, hofd, key, hL]
    rw [List.map_reverse, List.reverse_reverse, List.map_map]
    have h2 : ∀ c ∈ c0 :: ds', (digitChar ∘ digitVal) c = id c := fun c hc =>
      digitChar_digitVal (hd c hc)
    rw [List.map_congr_left h2, List.map_id]

/-! ### What a successful `readInt` tells us, and how it acts on renderings -/

lemma readInt_ok {lo hi : ℕ} {lab : String} {s : List Char} {v : ℕ}
    {rest : List Char} (h : readInt lo hi lab s = .ok (v, rest)) :
    lo ≤ v ∧ v ≤ hi ∧ noDigHead rest = true ∧ s = renderNat v ++ rest := by
  unfold readInt at h
  split_ifs at h with h1 h2 h3
  cases h
  refine ⟨h3.1, h3.2, noDigHead_dropWhile s, ?_⟩
  have hcanon : renderNat (ofDigits (s.takeWhile isDig)) = s.takeWhile isDig :=
    renderNat_ofDigits h1 (fun c hc => List.mem_takeWhile_imp hc) h2
  rw [hcanon]
  exact (List.takeWhile_append_dropWhile isDig s).symm

lemma readInt_render {lo hi v : ℕ} {lab : String} {rest : List Char}
    (h1 : lo ≤ v) (h2 : v ≤ hi) (hr : noDigHead rest = true) :
    readInt lo hi lab (renderNat v ++ rest) = .ok (v, rest) := by
  obtain ⟨htw, hdw⟩ := takeWhile_all_append (@renderNat_digits_mem v) hr
  unfold readInt
  rw [htw, hdw]
  rw [if_neg (renderNat_ne_nil v)]
  have hcond2 : ¬(2 ≤ (renderNat v).length ∧ (renderNat v).head? = some '0') := by
    by_cases hv : v = 0
    · subst hv
      rintro ⟨hlen, -⟩
      simp [renderNat] at hlen
    · rintro ⟨-, hh⟩
      exact renderNat_head_ne_zero hv hh
  rw [if_neg hcond2, ofDigits_renderNat, if_pos ⟨h1, h2⟩]

lemma readSpace_ok {s t : List Char} (h : readSpace s = .ok t) : s = ' ' :: t := by
  cases s with
  | nil => cases h
  | cons c r =>
    simp only [readSpace] at h
    split_ifs at h with hc
    cases h
    rw [hc]

lemma readEoln_ok {s t : List Char} (h : readEoln s = .ok t) : s = '\n' :: t := by
  cases s with
  | nil => cases h
  | cons c r =>
    simp only [readEoln] at h
    split_ifs at h with hc
    cases h
    rw [hc]

lemma readEof_ok {s : List Char} (h : readEof s = .ok ()) : s = [] := by
  cases s with
  | nil => rfl
  | cons c r => cases h

/-! ### The element loop: behaviour on renderings, and inversion -/

lemma readItems_render : ∀ (a : List ℕ), a ≠ [] →
    (∀ v ∈ a, 1 ≤ v ∧ v ≤ 10000) → ∀ rest : List Char, noDigHead rest = true →
    readItems a.length (renderRow a ++ rest) = .ok (a, rest) := by
  intro a
  induction a with
  | nil => intro h; exact absurd rfl h
  | cons v tail ih =>
    intro _ hb rest hr
    cases tail with
    | nil =>
      have hv := hb v (List.mem_cons_self v [])
      have hread := @readInt_render 1 10000 v "a_i" rest hv.1 hv.2 hr
      simp [readItems, renderRow, hread]
    | cons w t =>
      have hv := hb v (List.mem_cons_self v (w :: t))
      have hne' : w :: t ≠ [] := by simp
      have hb' : ∀ x ∈ w :: t, 1 ≤ x ∧ x ≤ 10000 := fun x hx =>
        hb x (List.mem_cons_of_mem v hx)
      have ih' := ih hne' hb' rest hr
      have hread := @readInt_render 1 10000 v "a_i" (' ' :: (renderRow (w :: t) ++ rest))
        hv.1 hv.2 rfl
      show readItems ((w :: t).length + 1) (renderRow (v :: w :: t) ++ rest) = _
      unfold readItems
      simp only [renderRow, List.append_assoc, List.cons_append]
      rw [hread]
      simp only [List.length_cons] at ih'
      simp [readSpace, ih']

lemma readItems_ok : ∀ (k : ℕ) (s : List Char) (vs : List ℕ) (rest : List Char),
    readItems k s = .ok (vs, rest) →
    vs.length = k ∧ (∀ v ∈ vs, 1 ≤ v ∧ v ≤ 10000) ∧
      ((k = 0 ∧ vs = [] ∧ s = rest) ∨ (vs ≠ [] ∧ s = renderRow vs ++ rest)) := by
  intro k
  induction k with
  | zero =>
    intro s vs rest h
    simp only [readItems] at h
    cases h
    exact ⟨rfl, by simp, Or.inl ⟨rfl, rfl, rfl⟩⟩
  | succ k ih =>
    intro s vs rest h
    simp only [readItems] at h
    cases hri : readInt 1 10000 "a_i" s with
    | error e => rw [hri] at h; cases h
    | ok p =>
      obtain ⟨v, s1⟩ := p
      rw [hri] at h
      dsimp only at h
      obtain ⟨hlo, hhi, hnd1, hs⟩ := readInt_ok hri
      by_cases hk : k = 0
      · subst hk
        rw [if_pos rfl] at h
        cases h
        refine ⟨rfl, ?_, Or.inr ⟨by simp, ?_⟩⟩
        · intro x hx
          rw [List.mem_singleton] at hx
          subst hx
          exact ⟨hlo, hhi⟩
        · rw [hs]
          rfl
      · rw [if_neg hk] at h
        cases hsp : readSpace s1 with
        | error e => rw [hsp] at h; cases h
        | ok s2 =>
          rw [hsp] at h
          dsimp only at h
          cases hitems : readItems k s2 with
          | error e => rw [hitems] at h; cases h
          | ok q =>
            obtain ⟨vs', s3⟩ := q
            rw [hitems] at h
            cases h
            obtain ⟨hlen, hb', hcase⟩ := ih s2 _ _ hitems
            rcases hcase with ⟨hk0, -, -⟩ | ⟨hne', hs2⟩
            · exact absurd hk0 hk
            · obtain ⟨w, t, rfl⟩ : ∃ w t, vs' = w :: t := by
                cases vs' with
                | nil => exact absurd rfl hne'
                | cons w t => exact ⟨w, t, rfl⟩
              refine ⟨by simp [hlen], ?_, Or.inr ⟨by simp, ?_⟩⟩
              · intro x hx
                rcases List.mem_cons.mp hx with rfl | hx'
                · exact ⟨hlo, hhi⟩
                · exact hb' x hx'
              · rw [hs, readSpace_ok hsp, hs2]
                simp [renderRow, List.append_assoc]

/-! ### The validator against the grammar -/

lemma readRecord_ok {s : List Char} {n : ℕ} {a : List ℕ} {s4 : List Char}
    (h : readRecord s = .ok ((n, a), s4)) :
    1 ≤ n ∧ n ≤ 1000 ∧ a.length = n ∧ (∀ v ∈ a, 1 ≤ v ∧ v ≤ 10000) ∧
      s = renderNat n ++ '\n' :: (renderRow a ++ '\n' :: s4) := by
  simp only [readRecord] at h
  cases hn : readInt 1 1000 "n" s with
  | error e => rw [hn] at h; cases h
  | ok p =>
    obtain ⟨n', s1⟩ := p
    rw [hn] at h
    dsimp only at h
    cases he1 : readEoln s1 with
    | error e => rw [he1] at h; cases h
    | ok s2 =>
      rw [he1] at h
      dsimp only at h
      cases hit : readItems n' s2 with
      | error e => rw [hit] at h; cases h
      | ok q =>
        obtain ⟨a', s3⟩ := q
        rw [hit] at h
        dsimp only at h
        cases he2 : readEoln s3 with
        | error e => rw [he2] at h; cases h
        | ok s4' =>
          rw [he2] at h
          dsimp only at h
          cases h
          obtain ⟨h1, h2, -, hsn⟩ := readInt_ok hn
          obtain ⟨hlen, hbnd, hcase⟩ := readItems_ok _ _ _ _ hit
          rcases hcase with ⟨hn0, -, -⟩ | ⟨-, hs2⟩
          · omega
          · refine ⟨h1, h2, hlen, hbnd, ?_⟩
            rw [hsn, readEoln_ok he1, hs2, readEoln_ok he2]

lemma validator_render {n : ℕ} {a : List ℕ} (h1 : 1 ≤ n) (h2 : n ≤ 1000)
    (hlen : a.length = n) (hb : ∀ v ∈ a, 1 ≤ v ∧ v ≤ 10000) :
    validator (render n a) = .ok () := by
  have hane : a ≠ [] := by
    intro h
    subst h
    simp at hlen
    omega
  have hn := @readInt_render 1 1000 n "n" ('\n' :: (renderRow a ++ ['\n']))
    h1 h2 rfl
  have hitems := readItems_render a hane hb ['\n'] rfl
  rw [hlen] at hitems
  unfold validator testCaseCount runCases readRecord
  rw [show render n a = renderNat n ++ '\n' :: (renderRow a ++ ['\n']) from rfl]
  rw [hn]
  dsimp only
  simp [readEoln, hitems, runCases, readEof]

lemma validator_ok {s : List Char} (h : validator s = .ok ()) : GrammarOK s := by
  simp only [validator, testCaseCount, runCases] at h
  cases hrec : readRecord s with
  | error e => rw [hrec] at h; cases h
  | ok p =>
    obtain ⟨⟨n, a⟩, s4⟩ := p
    rw [hrec] at h
    dsimp only at h
    have hs4 : s4 = [] := readEof_ok h
    subst hs4
    obtain ⟨h1, h2, hlen, hbnd, hs⟩ := readRecord_ok hrec
    exact ⟨n, a, h1, h2, hlen, hbnd, hs⟩

lemma accepts_iff {s : List Char} : accepts s = true ↔ validator s = .ok () := by
  unfold accepts
  cases h : validator s with
  | ok u => cases u; simp
  | error e => simp

lemma validator_iff_grammar (s : List Char) :
    validator s = .ok () ↔ GrammarOK s := by
  constructor
  · exact validator_ok
  · rintro ⟨n, a, h1, h2, hlen, hbnd, rfl⟩
    exact validator_render h1 h2 hlen hbnd

/-! ### The claims -/

/-- C1: for every pair of finite numbers `(r, c)` read from the
reference-answer stream and the candidate-output stream, the checker reports
score exactly `|r - c|` and a diagnostic rendering both values with the fixed
4-decimal format; `fmt4` always produces a point followed by exactly four
digit characters. -/
theorem C1_score_abs_diff_msg_fixed4 :
    (∀ (r c : ℚ) (infS ansR oufR : List Tok),
        checker infS (Tok.num r :: ansR) (Tok.num c :: oufR) =
          .ok ({ score := |r - c|, msg := quitpMsg r c }, infS, ansR, oufR)) ∧
    (∀ q : ℚ, ∃ pre ds : List Char, fmt4 q = pre ++ '.' :: ds ∧
        ds.length = 4 ∧ ∀ c ∈ ds, isDig c = true) := by
  constructor
  · intro r c infS ansR oufR
    rfl
  · intro q
    refine ⟨(if q < 0 then ['-'] else []) ++
        renderNat ((q.num.natAbs * 10000 * 2 + q.den) / (2 * q.den) / 10000),
      fixed4 ((q.num.natAbs * 10000 * 2 + q.den) / (2 * q.den) % 10000),
      ?_, rfl, ?_⟩
    · simp only [fmt4, List.append_assoc]
    · intro c hc
      simp only [fixed4, List.mem_cons, List.not_mem_nil, or_false] at hc
      rcases hc with rfl | rfl | rfl | rfl <;>
        exact isDig_digitChar _ (Nat.mod_lt _ (by norm_num))

/-- C2: the validator accepts a byte sequence exactly when it matches the
grammar of §3 (count `n ∈ [1, 1000]`, end-of-line, the `n` elements in
`[1, 10000]` separated by single spaces, end-of-line, end-of-file); in
particular `"3\n5 10 1\n"` is accepted. -/
theorem C2_accepts_iff_grammar :
    (∀ s : List Char, accepts s = true ↔ GrammarOK s) ∧
    accepts "3\n5 10 1\n".toList = true := by
  constructor
  · intro s
    rw [accepts_iff]
    exact validator_iff_grammar s
  · decide

/-- C3: whenever the reference-answer stream or the candidate-output stream
does not begin with a well-formed number token (absent or malformed), the
checker terminates with a fatal error naming the offending stream, and
produces no graded outcome (hence no score at all). -/
theorem C3_malformed_token_fatal :
    (∀ (infS oufS : List Tok) (w : String) (ansR : List Tok),
      checker infS (Tok.bad w :: ansR) oufS = .error (.doubleExpected "ans")) ∧
    (∀ infS oufS : List Tok, checker infS [] oufS = .error (.doubleExpected "ans")) ∧
    (∀ (infS : List Tok) (r : ℚ) (ansR : List Tok) (w : String) (oufR : List Tok),
      checker infS (Tok.num r :: ansR) (Tok.bad w :: oufR) =
        .error (.doubleExpected "ouf")) ∧
    (∀ (infS : List Tok) (r : ℚ) (ansR : List Tok),
      checker infS (Tok.num r :: ansR) [] = .error (.doubleExpected "ouf")) :=
  ⟨fun _ _ _ _ => rfl, fun _ _ => rfl, fun _ _ _ _ _ => rfl, fun _ _ _ => rfl⟩

/-- C4: the validator's bounds are inclusive and out-of-range integers are
fatal: `"0\n\n"` is rejected with a range violation on `n`, `"2\n5 10000\n"`
is accepted, `"2\n5 10001\n"` is rejected with a range violation on `a_i`,
and every integer a successful `readInt` returns lies within its inclusive
bounds. -/
theorem C4_inclusive_bounds :
    validator "0\n\n".toList = .error (.outOfRange "n") ∧
    validator "2\n5 10000\n".toList = .ok () ∧
    validator "2\n5 10001\n".toList = .error (.outOfRange "a_i") ∧
    (∀ (lo hi : ℕ) (lab : String) (s : List Char) (v : ℕ) (rest : List Char),
      readInt lo hi lab s = .ok (v, rest) → lo ≤ v ∧ v ≤ hi) := by
  refine ⟨by rfl, by rfl, by rfl, ?_⟩
  intro lo hi lab s v rest h
  obtain ⟨h1, h2, -, -⟩ := readInt_ok h
  exact ⟨h1, h2⟩

/-- C5: exactly one space separates consecutive elements: the double-space
input `"2\n5  10\n"` is fatally rejected (the second space makes the next
element token malformed), `readSpace` consumes exactly one space, and fails
on any other character. -/
theorem C5_single_space_separator :
    validator "2\n5  10\n".toList = .error (.intExpected "a_i") ∧
    (∀ r : List Char, readSpace (' ' :: r) = .ok r) ∧
    (∀ (c : Char) (r : List Char), c ≠ ' ' →
      readSpace (c :: r) = .error .spaceExpected) := by
  refine ⟨by rfl, fun r => rfl, ?_⟩
  intro c r h
  simp [readSpace, h]

/-- C6: after the final end-of-line the validator asserts end-of-file, so any
trailing bytes are fatal: `"2\n5 10\nextra"` is rejected with an end-of-file
violation, and `readEof` fails on every nonempty stream. -/
theorem C6_trailing_data_rejected :
    validator "2\n5 10\nextra".toList = .error .eofExpected ∧
    (∀ (c : Char) (r : List Char), readEof (c :: r) = .error .eofExpected) :=
  ⟨rfl, fun _ _ => rfl⟩

/-- C7: both components are deterministic: running the validator twice on the
same bytes yields the same accept/reject outcome and failure label, and
running the checker twice on the same stream contents yields the same graded
outcome (score and diagnostic). -/
theorem C7_deterministic :
    (∀ b b' : List Char, b = b' → validator b = validator b') ∧
    (∀ i a o i' a' o' : List Tok, i = i' → a = a' → o = o' →
      checker i a o = checker i' a' o') := by
  constructor
  · intro b b' h
    rw [h]
  · intro i a o i' a' o' h1 h2 h3
    rw [h1, h2, h3]

/-- C8: the checker consumes exactly one token from the reference-answer
stream and one from the candidate-output stream, and leaves the
original-input stream untouched: the final stream contents are exactly the
two tails and the unchanged `inf`. -/
theorem C8_consumes_one_token_each :
    ∀ (infS ansR oufR : List Tok) (r c : ℚ),
      ∃ g : Graded, checker infS (Tok.num r :: ansR) (Tok.num c :: oufR) =
        .ok (g, infS, ansR, oufR) :=
  fun _ _ _ _ _ => ⟨_, rfl⟩

/-- C9: the checker's score is symmetric in the two stream values: swapping
the reference and candidate values yields the same reported score. -/
theorem C9_score_symmetric :
    ∀ (r c : ℚ) (infS ansR oufR : List Tok),
      (checker infS (Tok.num r :: ansR) (Tok.num c :: oufR)).map
          (fun p => p.1.score) =
        (checker infS (Tok.num c :: ansR) (Tok.num r :: oufR)).map
          (fun p => p.1.score) := by
  intro r c infS ansR oufR
  simp only [checker, readDouble, Except.map]
  rw [abs_sub_comm]

/-- C10: for `n = 1` no space separator is read at all: every file
`"1\n"` followed by one in-range integer and `"\n"` is accepted, in
particular `"1\n7\n"`. -/
theorem C10_single_element_no_separator :
    (∀ v : ℕ, 1 ≤ v → v ≤ 10000 → validator (render 1 [v]) = .ok ()) ∧
    validator "1\n7\n".toList = .ok () := by
  constructor
  · intro v h1 h2
    refine validator_render (by norm_num) (by norm_num) rfl ?_
    intro x hx
    rw [List.mem_singleton] at hx
    subst hx
    exact ⟨h1, h2⟩
  · rfl

end Polyman
